import Mathlib

/-!
# A shallow embedding of the Locksmith lock-order validator core

This file embeds, in Lean, the data model and the operations of the
Locksmith runtime lock-order validator (`src/lksmith.c`) that are needed
to settle the frozen claims about its specification:

* the sorted "before" arrays of each lock record and the insertion /
  removal helpers `lk_add_sorted` / `lk_remove_sorted` (and their
  wrappers `lk_add_before` / `lk_remove_before`);
* the holder list of a lock record and `lk_holder_remove`;
* the registry-level `lksmith_destroy` sweep;
* the thread-local state (`held` list, `num_spins`, `intercept`) and the
  entry points `lksmith_preunlock`, `lksmith_check_locked`,
  `lksmith_set_thread_name` / `lksmith_get_thread_name`;
* the `lksmith_postlock` property updates (`nlock` saturation and the
  one-shot `spin_warn` flag);
* the generation-stamp colored depth-first cycle search
  (`lksmith_search`) used by `lksmith_prelock_process_depends`.

Conventions of the embedding:

* C pointers that serve only as identities (the user's lock token
  `const void *ptr`, and addresses of `struct lksmith_lock` records) are
  modelled as natural numbers; C pointer comparisons (`<`, `>`, `==`)
  become the corresponding comparisons on `Nat`.
* Fallible or undefined behavior is made explicit: a model returns
  `Option α`, and `none` marks a C execution that commits undefined
  behavior (an out-of-bounds `memmove` write, a NULL dereference).
* Machine integers are `Nat` with explicit bounds where overflow can
  matter (`num_spins` is a 63-bit bitfield, `nlock` a 61-bit bitfield
  saturating at `MAX_NLOCK`).
* Error codes keep their errno names and conventional values; only
  their distinctness matters.
* Out-of-memory failures of `malloc`/`realloc`/`calloc` are not
  modelled: every claim treated here is about the logic on the
  successful-allocation paths (the claims except OOM explicitly where
  they mention it).
-/

namespace Lksmith

/-! ## Error codes (errno values used by `lksmith.c`) -/

def EPERM : Nat := 1
def ENOENT : Nat := 2
def EIO : Nat := 5
def EWOULDBLOCK : Nat := 11
def ENOMEM : Nat := 12
def EBUSY : Nat := 16
def EEXIST : Nat := 17
def EDEADLK : Nat := 35

/-- The constant MAX_NLOCK = 0x1fffffffffffffff (lksmith.c:53): the
saturation bound of the 61-bit `nlock` counter. -/
def MAX_NLOCK : Nat := 2 ^ 61 - 1

/-- The constant LKSMITH_THREAD_NAME_MAX = 16 (lksmith.h:67): maximum
length of a thread name, including the terminating NUL byte. -/
def LKSMITH_THREAD_NAME_MAX : Nat := 16

/-! ## Lock records (`struct lksmith_lock`, lksmith.c:78-90)

A holder entry (`struct lksmith_holder`) carries the holding thread's
name, a captured backtrace and a `next` link; only the name takes part
in any logic treated here (`lk_holder_remove` matches on it with
`strcmp`), so a holder is modelled by its thread name and the holder
list by a `List String` (head of list = most recently prepended).

The `before` array of a record stores pointers to other records, kept
sorted by pointer value; it is modelled as a `List Nat` of record
identities, sorted by identity. -/

structure LockProps where
  /-- 61-bit count of times this mutex has been locked (saturating). -/
  nlock : Nat
  /-- allow recursive locking. -/
  recursive : Bool
  /-- this is a sleeping lock (not a spin lock). -/
  sleeper : Bool
  /-- one-shot flag: already warned about taking this sleeping lock
  while a spin lock was held. -/
  spin_warn : Bool
deriving DecidableEq, Repr

structure LockRec where
  /-- the user's lock token (`const void *ptr`), the registry key. -/
  ptr : Nat
  props : LockProps
  /-- generation stamp used by the cycle search. -/
  color : Nat
  /-- names of the holding threads, most recent first. -/
  holders : List String
  /-- identities of locks taken before this one, sorted ascending. -/
  before : List Nat
deriving DecidableEq, Repr

/-! ## Sorted-array helpers (lksmith.c:551-641) -/

/-- Embeds `lk_add_sorted` (lksmith.c:563-583).  The C loop scans for
the first slot holding the element (early `return 0`, array untouched)
or a greater element (`break`, insert there); reaching the end inserts
at the end.  The `realloc`+`memmove` of the C shifts the tail up by one
slot.  The OOM branch (`return ENOMEM`) is not modelled; on every
modelled path the function returns 0. -/
def lk_add_sorted : List Nat → Nat → List Nat
  | [], lk => [lk]
  | x :: xs, lk =>
    if x = lk then x :: xs
    else if lk < x then lk :: x :: xs
    else x :: lk_add_sorted xs lk

/-- The index scan of `lk_remove_sorted` (lksmith.c:601-607): the first
index holding `ak`, scanning left to right, giving up early (`return`)
at the first element greater than `ak`. -/
def lk_remove_scan : List Nat → Nat → Option Nat
  | [], _ => none
  | x :: xs, ak =>
    if x = ak then some 0
    else if ak < x then none
    else (lk_remove_scan xs ak).map (· + 1)

/-- Embeds `lk_remove_sorted` (lksmith.c:594-615).  When the scan does
not find `ak` (also when the array is NULL/empty), the array is
returned unchanged.  When it finds `ak` at index `i`, the C executes

    memmove(&(*arr)[i - 1], &(*arr)[i],
            sizeof(struct lksmith_lock*) * (*num - i - 1));

writing the elements at indices `i .. num-2` to indices `i-1 .. num-3`,
and then shrinks the array to `num - 1` elements.  For `i = 0` with
more than one element this writes to index `-1`, outside the array:
that execution is undefined behavior, modelled as `none`.  For `i ≥ 1`
(and for the singleton case `i = 0, num = 1`, which moves nothing) the
result is the well-defined list

    old[0..i-2] ++ old[i..num-2] ++ [old[num-2]]

(the positions `num-2` and `num-1` are not written by the `memmove`, and
the shrink drops the last slot). -/
def lk_remove_sorted (l : List Nat) (ak : Nat) : Option (List Nat) :=
  match lk_remove_scan l ak with
  | none => some l
  | some i =>
    if i = 0 then
      if l.length ≤ 1 then some [] else none
    else
      some (l.take (i - 1) ++ (l.drop i).take (l.length - i - 1)
            ++ (l.drop (l.length - 2)).take 1)

/-- Embeds `lk_add_before` (lksmith.c:626-629): adds a lock record's
identity to the sorted `before` array of a record. -/
def lk_add_before (lk : LockRec) (ak : Nat) : LockRec :=
  { lk with before := lk_add_sorted lk.before ak }

/-- Embeds `lk_remove_before` (lksmith.c:638-641): removes a lock
record's identity from the sorted `before` array of a record. -/
def lk_remove_before (lk : LockRec) (ak : Nat) : Option LockRec :=
  (lk_remove_sorted lk.before ak).map fun b => { lk with before := b }

/-! ## Holder removal (lksmith.c:666-688) -/

/-- Embeds `lk_holder_remove` (lksmith.c:666-688).  The C walks the
singly-linked holder list through a pointer-to-pointer cursor
(`holder = &lk->holders; ... holder = &(*holder)->next`), stopping at
the first holder whose name equals the thread's name (`strcmp`), then
unlinks and frees it and returns 0.  The guard intended for the
not-found case reads `if (!holder)`, but the cursor `holder` is the
address of a field and is never NULL, so when no name matches the walk
ends with `*holder == NULL` and the next line `next = (*holder)->next`
dereferences NULL.  That execution is undefined behavior (a crash),
modelled as `none`; the `-ENOENT` return of the source's documented
contract is unreachable. -/
def lk_holder_remove : List String → String → Option (Int × List String)
  | [], _ => none
  | h :: hs, tname =>
    if h = tname then some (0, hs)
    else (lk_holder_remove hs tname).map fun r => (r.1, h :: r.2)

/-! ## Thread-local state (`struct lksmith_tls`, lksmith.c:92-107) -/

structure LkTls where
  /-- the thread's name, at most `LKSMITH_THREAD_NAME_MAX - 1` bytes
  (the array also stores a terminating NUL, not modelled). -/
  name : List Char
  /-- unsorted list of lock tokens held, in acquisition order;
  duplicates allowed for recursive locks. -/
  held : List Nat
  /-- 63-bit count of spin locks currently held. -/
  num_spins : Nat
  /-- intercept pthreads calls?  false = pass everything through. -/
  intercept : Bool
deriving DecidableEq, Repr

/-- Embeds `tls_contains_lid` (lksmith.c:460-469): linear scan of the
`held` list. -/
def tls_contains_lid (tls : LkTls) (ptr : Nat) : Bool :=
  tls.held.contains ptr

/-! ## The registry and `lksmith_destroy`

The registry is a red-black tree of records keyed by the token `ptr`
(`g_tree`); it is modelled as a list of records with pairwise distinct
tokens.  Registry lookups (`lksmith_find`, via `RB_FIND`) become a
first-match scan. -/

/-- Embeds `lksmith_find` (lksmith.c:776-782). -/
def lksmith_find (reg : List LockRec) (ptr : Nat) : Option LockRec :=
  reg.find? fun lk => lk.ptr = ptr

/-- Embeds the registry transition of `lksmith_destroy`
(lksmith.c:813-863), from the point where the registry lock is held:
look up the record (absent ⇒ `ENOENT`, registry untouched); refuse with
`EBUSY` when the holder list is non-empty (registry untouched);
otherwise remove the record from the tree and sweep every remaining
record with `lk_remove_before` to erase the destroyed record from its
`before` array.  Returns the error code and the resulting registry;
`none` marks an undefined-behavior execution inside the sweep's
`lk_remove_sorted`.  The entry point's thread-local prologue (OOM on
TLS allocation, and the `intercept == 0` pass-through that returns 0
without touching the registry) is outside the registry transition
modelled here. -/
def lksmith_destroy (reg : List LockRec) (ptr : Nat) :
    Option (Nat × List LockRec) :=
  match lksmith_find reg ptr with
  | none => some (ENOENT, reg)
  | some lk =>
    if lk.holders ≠ [] then some (EBUSY, reg)
    else
      (((reg.filter fun ak => ak.ptr ≠ ptr).mapM
          fun ak => lk_remove_before ak ptr).map
        fun reg2 => (0, reg2))

/-! ## `lksmith_preunlock` (lksmith.c:1055-1089) -/

/-- Embeds `lksmith_preunlock` (lksmith.c:1055-1089) after a successful
TLS fetch: pass through with 0 when `intercept` is clear; `ENOENT` when
the registry holds no record for the token; `EPERM` when this thread's
`held` list does not contain the token; otherwise success, decrementing
`num_spins` exactly when the record is not a sleeper.  `num_spins` is a
63-bit bitfield, so the C decrement wraps modulo `2^63`. -/
def lksmith_preunlock (reg : List LockRec) (tls : LkTls) (ptr : Nat) :
    Nat × LkTls :=
  if !tls.intercept then (0, tls)
  else
    match lksmith_find reg ptr with
    | none => (ENOENT, tls)
    | some lk =>
      if !tls_contains_lid tls ptr then (EPERM, tls)
      else if !lk.props.sleeper then
        (0, { tls with num_spins := (tls.num_spins + (2 ^ 63 - 1)) % 2 ^ 63 })
      else (0, tls)

/-! ## `lksmith_check_locked` (lksmith.c:1133-1146) -/

/-- Embeds `lksmith_check_locked` (lksmith.c:1133-1146) after a
successful TLS fetch: returns 0 ("held") when `intercept` is clear,
otherwise 0 when the thread's `held` list contains the token and -1
("not held") when it does not.  (The OOM path returns `ENOMEM > 0` and
is excepted by the claims.) -/
def lksmith_check_locked (tls : LkTls) (ptr : Nat) : Int :=
  if !tls.intercept then 0
  else if tls_contains_lid tls ptr then 0 else -1

/-! ## Thread names (lksmith.c:1148-1172) -/

/-- Embeds `lksmith_set_thread_name` (lksmith.c:1148-1159) after a
successful TLS fetch: `snprintf(tls->name, LKSMITH_THREAD_NAME_MAX,
"%s", name)` copies at most `LKSMITH_THREAD_NAME_MAX - 1` bytes of the
source and NUL-terminates; the function then returns 0 on every path. -/
def lksmith_set_thread_name (tls : LkTls) (name : List Char) :
    Nat × LkTls :=
  (0, { tls with name := name.take (LKSMITH_THREAD_NAME_MAX - 1) })

/-- Embeds `lksmith_get_thread_name` (lksmith.c:1161-1172) after a
successful TLS fetch: returns the stored thread name. -/
def lksmith_get_thread_name (tls : LkTls) : List Char :=
  tls.name

/-! ## `lksmith_postlock` (lksmith.c:1004-1053)

For the one-shot `WouldBlock` hazard report the relevant state is the
record's property word; the rest of one `lksmith_postlock` call is
summarized by its inputs: whether the underlying acquisition failed,
whether appending to `held` succeeded, and the thread's current
`num_spins`. -/

structure PostlockCall where
  /-- the underlying lock acquisition returned an error. -/
  error : Bool
  /-- `tls_append_held` succeeded (false = `ENOMEM`). -/
  append_ok : Bool
  /-- the calling thread's `num_spins` at this call. -/
  num_spins : Nat
deriving DecidableEq, Repr

/-- Embeds the effect of one `lksmith_postlock` call
(lksmith.c:1004-1053) on a lock record's property word, together with
the boolean "this call emitted the `EWOULDBLOCK` spin-then-sleep
report".  Mirrors the source's order: an acquisition error leaves the
properties alone (the provisional holder is removed); otherwise `nlock`
is incremented while below `MAX_NLOCK`; a failed `held` append stops
further processing; a non-sleeper bumps the thread's `num_spins` (not
part of the record state); a sleeper taken with `num_spins > 0` and
`spin_warn` still clear emits the report and sets `spin_warn`. -/
def nlock_bump (props : LockProps) : LockProps :=
  if props.nlock < MAX_NLOCK then { props with nlock := props.nlock + 1 }
  else props

def lksmith_postlock (props : LockProps) (c : PostlockCall) :
    LockProps × Bool :=
  if c.error then (props, false)
  else if !c.append_ok then (nlock_bump props, false)
  else if !(nlock_bump props).sleeper then (nlock_bump props, false)
  else if 0 < c.num_spins && !(nlock_bump props).spin_warn then
    ({ nlock_bump props with spin_warn := true }, true)
  else (nlock_bump props, false)

/-- A sequence of `lksmith_postlock` calls against the same record:
final property word and the number of `EWOULDBLOCK` reports emitted. -/
def lksmith_postlock_trace (props : LockProps) :
    List PostlockCall → LockProps × Nat
  | [] => (props, 0)
  | c :: cs =>
    let r := lksmith_postlock props c
    let rest := lksmith_postlock_trace r.1 cs
    (rest.1, (if r.2 then 1 else 0) + rest.2)

/-! ## The cycle search (lksmith.c:865-918)

`lksmith_search` is a recursive depth-first search over the `before`
arrays, looking for a record whose token `ptr` equals the target
`start`; visited records are stamped with the current generation color
`g_color`.  For the search only the graph shape (token of each record,
`before` adjacency) and the color stamps matter, so the registry is
abstracted to a finite graph over `Fin n` together with a coloring
`Fin n → Nat`, threaded through the search in state-passing style.

The C recursion is a function of the current node that iterates over
its `before` array, recursing on each child; the embedding splits the
iteration into `lksmith_search_loop` and bounds the recursion depth by
an explicit fuel.  Exhausted fuel yields `none`; the theorems below
show any fuel larger than the number of unstamped nodes is enough, so
the fuel is an artifact of the embedding, not of the C code. -/

/-- The registry as seen by the cycle search: `n` records, each with
its token and its `before` adjacency list. -/
structure SGraph (n : Nat) where
  ptrOf : Fin n → Nat
  beforeOf : Fin n → List (Fin n)

/-- Stamp node `u` with color `gc` (`lk->color = g_color`,
lksmith.c:871). -/
def stamp {n : Nat} (gc : Nat) (col : Fin n → Nat) (u : Fin n) :
    Fin n → Nat :=
  fun v => if v = u then gc else col v

/-- The `for` loop of `lksmith_search` (lksmith.c:872-876): run the
recursion `f` (the search at the remaining recursion depth) on each
child in order, threading the color state, stopping at the first
nonzero result. -/
def lksmith_search_loop {n : Nat}
    (f : (Fin n → Nat) → Fin n → Option (Bool × (Fin n → Nat))) :
    (Fin n → Nat) → List (Fin n) → Option (Bool × (Fin n → Nat))
  | col, [] => some (false, col)
  | col, v :: vs =>
    match f col v with
    | none => none
    | some (true, col1) => some (true, col1)
    | some (false, col1) => lksmith_search_loop f col1 vs

/-- Embeds `lksmith_search` (lksmith.c:865-880): return 1 when the
current record's token is the target; return 0 when the record is
already stamped with the current generation; otherwise stamp it and
search its `before` children in order. -/
def lksmith_search {n : Nat} (g : SGraph n) (gc start : Nat) :
    Nat → (Fin n → Nat) → Fin n → Option (Bool × (Fin n → Nat))
  | 0, _, _ => none
  | fuel + 1, col, u =>
    if g.ptrOf u = start then some (true, col)
    else if col u = gc then some (false, col)
    else lksmith_search_loop (lksmith_search g gc start fuel)
        (stamp gc col u) (g.beforeOf u)

/-- A record with token `start` is reachable from `u` along `before`
edges (the property the cycle search looks for). -/
inductive Reaches {n : Nat} (g : SGraph n) (start : Nat) : Fin n → Prop
  | here {u : Fin n} : g.ptrOf u = start → Reaches g start u
  | step {u v : Fin n} : v ∈ g.beforeOf u → Reaches g start v →
      Reaches g start u

/-- A coloring is *safe* for generation `gc` and target `start` when
every `gc`-stamped node has a different token than the target and only
`gc`-stamped successors.  The all-fresh coloring of the first search of
a dependency-processing pass is safe vacuously, and (shown below) a
search that returns 0 leaves a safe coloring safe. -/
def SafeCol {n : Nat} (g : SGraph n) (gc start : Nat)
    (col : Fin n → Nat) : Prop :=
  ∀ v, col v = gc → g.ptrOf v ≠ start ∧ ∀ w ∈ g.beforeOf v, col w = gc

/-- The number of nodes not stamped with the current generation: the
resource the fuel has to dominate. -/
def unstamped {n : Nat} (gc : Nat) (col : Fin n → Nat) : Nat :=
  (Finset.univ.filter fun v => col v ≠ gc).card

/-- Colorings only accumulate stamps: every node stamped `gc` in `col`
is still stamped in `col2`. -/
def ColGrows {n : Nat} (gc : Nat) (col col2 : Fin n → Nat) : Prop :=
  ∀ v, col v = gc → col2 v = gc

/-- What a 0-returning search guarantees about its final coloring
`col2` relative to its initial coloring `col`: every stamped node
either was stamped before, or has a non-target token and only
finally-stamped successors. -/
def NewStamps {n : Nat} (g : SGraph n) (gc start : Nat)
    (col col2 : Fin n → Nat) : Prop :=
  ∀ v, col2 v = gc →
    col v = gc ∨ (g.ptrOf v ≠ start ∧ ∀ w ∈ g.beforeOf v, col2 w = gc)

/-! ## Concrete fixtures used by counterexamples and witnesses -/

/-- Default property word of a freshly `calloc`ed record with both
flag bits clear. -/
def plainProps : LockProps := ⟨0, false, false, false⟩

/-- A registry of four holder-free records 1,2,3,4 where record 4 has
`before = [1, 2, 3]`. -/
def destroyDemoReg : List LockRec :=
  [⟨1, plainProps, 0, [], []⟩,
   ⟨2, plainProps, 0, [], []⟩,
   ⟨3, plainProps, 0, [], []⟩,
   ⟨4, plainProps, 0, [], [1, 2, 3]⟩]

/-- A one-record registry whose record (token 7) is held by thread
`"t"`. -/
def busyDemoReg : List LockRec :=
  [⟨7, plainProps, 0, ["t"], []⟩]

/-- The four-record search graph of the stale-color counterexample:
tokens are the indices; `before` edges `0 → 1`, `1 → 2`, `3 → 1`.
With target token 2, node 2 is reachable both from node 0 and from
node 3 through the shared node 1. -/
def searchDemo : SGraph 4 :=
  ⟨fun v => v.val,
   fun v => if v = 0 then [1] else if v = 1 then [2]
            else if v = 3 then [1] else []⟩

/-- Two back-to-back searches of one dependency-processing pass on
`searchDemo` (the pass bumps `g_color` to 1 once, then searches from
each held lock's record with the same target token 2): first from node
0, then from node 3 reusing the colors left by the first.  Records the
two boolean results. -/
def searchDemoRuns : Option (Bool × Bool) :=
  (lksmith_search searchDemo 1 2 5 (fun _ => 0) 0).bind fun r =>
    (lksmith_search searchDemo 1 2 5 r.2 3).map fun r2 => (r.1, r2.1)

/-- A two-record graph (tokens 10 and 11, edge `0 → 1`) used to
witness the amended search theorem on a fresh coloring. -/
def safeDemo : SGraph 2 :=
  ⟨fun v => 10 + v.val, fun v => if v = 0 then [1] else []⟩

/-! # Theorems -/

/-! ## C3: `lk_remove_sorted` -/

/-- C3: the claim — "removeBefore removes exactly that record and
leaves all other elements of the array present, in order" — fails on
the code.  On the sorted array `[1, 2, 3]` with `2` present, the
`memmove` of `lk_remove_sorted` shifts to index `i - 1` instead of
`i`, so the call yields `[2, 2]` — the removed element is still
present (twice) and the elements `1` and `3` are gone — instead of
`[1, 3]`.  The absent case does leave the array unchanged. -/
theorem lk_remove_sorted_misremoves :
    lk_remove_sorted [1, 2, 3] 2 = some [2, 2] ∧
    lk_remove_sorted [1, 2, 3] 2 ≠ some [1, 3] ∧
    lk_remove_sorted [1, 2, 3] 7 = some [1, 2, 3] := by
  refine ⟨rfl, ?_, rfl⟩
  decide

/-! ## C2: `lk_holder_remove` -/

/-- C2: the claim's not-found branch — "the function returns a
not-found error and leaves the holder list unchanged without
dereferencing a null entry" — fails on the code.  With holder list
`["alice"]` and thread name `"bob"` no name matches, the cursor walk
ends with `*holder == NULL`, the guard `if (!holder)` tests the wrong
pointer, and `(*holder)->next` dereferences NULL (modelled `none`);
the documented `-ENOENT` return is unreachable.  The found case does
remove exactly the first holder with the thread's name: from
`["worker", "main", "worker"]`, removing for thread `"worker"` yields
`["main", "worker"]`. -/
theorem lk_holder_remove_null_deref :
    lk_holder_remove ["alice"] "bob" = none ∧
    lk_holder_remove ["worker", "main", "worker"] "worker"
      = some (0, ["main", "worker"]) := by
  exact ⟨rfl, rfl⟩

/-! ## C1: `lksmith_destroy` and the `beforeSet` sweep -/

/-- C1: the claim — "destroy(t) returns Ok ⇒ no record remaining in
the registry has t's record in its beforeSet" — fails on the code.  On
`destroyDemoReg`, `destroy(2)` returns 0 (Ok), yet the sweep's broken
`lk_remove_sorted` turns record 4's `before = [1, 2, 3]` into
`[2, 2]`: the destroyed (and freed) record 2 is still referenced, and
records 1 and 3 were dropped from the array instead. -/
theorem lksmith_destroy_leaves_reference :
    ((lksmith_destroy destroyDemoReg 2).map fun r =>
        (r.1, r.2.map fun ak => (ak.ptr, ak.before)))
      = some (0, [(1, []), (3, []), (4, [2, 2])]) ∧
    ¬ (∀ pb ∈ [((1 : Nat), ([] : List Nat)), (3, []), (4, [2, 2])],
        2 ∉ pb.2) := by
  refine ⟨rfl, ?_⟩
  decide

/-! ## C6: `lksmith_destroy` refuses a held lock -/

/-- C6: when the record for the token exists and its holder list is
non-empty, `lksmith_destroy` returns `EBUSY` and the registry — the
record included, with its properties, `before` array and holders — is
unchanged. -/
theorem lksmith_destroy_busy (reg : List LockRec) (ptr : Nat)
    (lk : LockRec) (hfind : lksmith_find reg ptr = some lk)
    (hh : lk.holders ≠ []) :
    lksmith_destroy reg ptr = some (EBUSY, reg) := by
  unfold lksmith_destroy
  rw [hfind]
  simp [hh]

/-- Witness for C6: destroying token 7 of `busyDemoReg`, held by
thread `"t"`, returns `EBUSY` with the registry untouched. -/
theorem lksmith_destroy_busy_witness :
    lksmith_destroy busyDemoReg 7 = some (EBUSY, busyDemoReg) :=
  lksmith_destroy_busy busyDemoReg 7 ⟨7, plainProps, 0, ["t"], []⟩
    (by decide) (by decide)

/-! ## C5: `lksmith_preunlock` -/

/-- The C5 case analysis of `lksmith_preunlock`, for an intercepting
thread: `ENOENT` when the token has no record, the state untouched;
`EPERM` when the thread does not hold the token, the state (so
`num_spins`) untouched; otherwise success, with `num_spins` decremented
(as the 63-bit field wraps) exactly when the record is not a sleeper,
hence decremented by one whenever it was positive. -/
def preunlockCases (reg : List LockRec) (tls : LkTls) (ptr : Nat) : Prop :=
  (lksmith_find reg ptr = none →
    lksmith_preunlock reg tls ptr = (ENOENT, tls)) ∧
  (∀ lk, lksmith_find reg ptr = some lk →
    (tls_contains_lid tls ptr = false →
      lksmith_preunlock reg tls ptr = (EPERM, tls)) ∧
    (tls_contains_lid tls ptr = true →
      lksmith_preunlock reg tls ptr =
        (0, if lk.props.sleeper then tls
            else { tls with
                     num_spins := (tls.num_spins + (2 ^ 63 - 1)) % 2 ^ 63 }) ∧
      (lk.props.sleeper = false → 0 < tls.num_spins →
        tls.num_spins < 2 ^ 63 →
        (lksmith_preunlock reg tls ptr).2.num_spins = tls.num_spins - 1)))

/-- C5: for an intercepting thread, `lksmith_preunlock` returns
`ENOENT` when no record exists, `EPERM` with `num_spins` unchanged
when the thread does not hold the lock, and otherwise 0, decrementing
`num_spins` iff the record's `sleeper` property is false. -/
theorem lksmith_preunlock_correct (reg : List LockRec) (tls : LkTls)
    (ptr : Nat) (hint : tls.intercept = true) :
    preunlockCases reg tls ptr := by
  refine ⟨fun hnone => ?_, fun lk hsome => ⟨fun hno => ?_, fun hyes => ⟨?_, ?_⟩⟩⟩
  · simp [lksmith_preunlock, hint, hnone]
  · simp [lksmith_preunlock, hint, hsome, hno]
  · by_cases hs : lk.props.sleeper <;>
      simp [lksmith_preunlock, hint, hsome, hyes, hs]
  · intro hs hpos hlt
    simp only [lksmith_preunlock, hint, hsome, hyes, hs]
    simp only [Bool.not_true, Bool.not_false, Bool.false_eq_true,
      if_false, if_true]
    omega

/-- Witness for C5: on a one-record registry (token 7, spin lock) and
a thread holding token 7 with `num_spins = 3`, all three branches of
the case analysis are available; in particular the success branch
yields `num_spins = 2`. -/
theorem lksmith_preunlock_correct_witness :
    preunlockCases [⟨7, plainProps, 0, [], []⟩] ⟨[], [7], 3, true⟩ 7 ∧
    lksmith_preunlock [⟨7, plainProps, 0, [], []⟩] ⟨[], [7], 3, true⟩ 7
      = (0, ⟨[], [7], 2, true⟩) := by
  constructor
  · exact lksmith_preunlock_correct _ _ _ rfl
  · have h := (lksmith_preunlock_correct [⟨7, plainProps, 0, [], []⟩]
      ⟨[], [7], 3, true⟩ 7 rfl).2 ⟨7, plainProps, 0, [], []⟩ (by decide)
    have h2 := ((h.2 (by decide)).1)
    rw [h2]
    decide

/-! ## C8: `lksmith_check_locked` -/

/-- C8 counterexample: the claim — "checkLocked(t) invoked on T
returns Held exactly when t occurs in T's held list, and NotHeld
exactly when it does not (out-of-memory excepted)" — fails on the
code for a thread whose `intercept` flag is clear: the entry point
passes through with 0, the "held" return (handler.c treats a zero
return as "held" and proceeds with the condition wait), although the
thread's `held` list is empty. -/
theorem lksmith_check_locked_passthrough :
    lksmith_check_locked ⟨[], [], 0, false⟩ 5 = 0 ∧
    5 ∉ (LkTls.held ⟨[], [], 0, false⟩) := by
  exact ⟨rfl, by decide⟩

/-- C8 as amended: for every thread whose `intercept` flag is set,
`lksmith_check_locked` returns 0 ("held") iff the token occurs in the
thread's `held` list and -1 ("not held") iff it does not. -/
theorem lksmith_check_locked_iff (tls : LkTls) (ptr : Nat)
    (hint : tls.intercept = true) :
    (lksmith_check_locked tls ptr = 0 ↔ ptr ∈ tls.held) ∧
    (lksmith_check_locked tls ptr = -1 ↔ ptr ∉ tls.held) := by
  by_cases hmem : ptr ∈ tls.held <;>
    simp [lksmith_check_locked, hint, tls_contains_lid, hmem]

/-- Witness for C8's amended theorem: an intercepting thread holding
token 3 and nothing else. -/
theorem lksmith_check_locked_iff_witness :
    (lksmith_check_locked ⟨[], [3], 1, true⟩ 3 = 0 ↔
      3 ∈ (LkTls.held ⟨[], [3], 1, true⟩)) ∧
    (lksmith_check_locked ⟨[], [3], 1, true⟩ 3 = -1 ↔
      3 ∉ (LkTls.held ⟨[], [3], 1, true⟩)) :=
  lksmith_check_locked_iff ⟨[], [3], 1, true⟩ 3 rfl

/-! ## C10: `lksmith_set_thread_name` -/

/-- C10: `lksmith_set_thread_name` returns 0 for every input string;
the stored name (what `lksmith_get_thread_name` then returns) is the
input truncated to the first `LKSMITH_THREAD_NAME_MAX - 1 = 15` bytes
(plus the terminator, not modelled), so a name of 16 bytes or more is
silently cut to 15 bytes rather than rejected. -/
theorem lksmith_set_thread_name_truncates (tls : LkTls)
    (name : List Char) :
    (lksmith_set_thread_name tls name).1 = 0 ∧
    lksmith_get_thread_name (lksmith_set_thread_name tls name).2
      = name.take (LKSMITH_THREAD_NAME_MAX - 1) ∧
    (LKSMITH_THREAD_NAME_MAX ≤ name.length →
      (lksmith_get_thread_name (lksmith_set_thread_name tls name).2).length
        = LKSMITH_THREAD_NAME_MAX - 1) := by
  refine ⟨rfl, rfl, fun hlen => ?_⟩
  simp only [lksmith_get_thread_name, lksmith_set_thread_name,
    List.length_take, LKSMITH_THREAD_NAME_MAX] at *
  omega

/-- Witness for C10: a 26-byte thread name is accepted and stored as
its first 15 bytes. -/
theorem lksmith_set_thread_name_truncates_witness :
    (lksmith_set_thread_name ⟨[], [], 0, true⟩
        "abcdefghijklmnopqrstuvwxyz".toList).1 = 0 ∧
    lksmith_get_thread_name (lksmith_set_thread_name ⟨[], [], 0, true⟩
        "abcdefghijklmnopqrstuvwxyz".toList).2
      = "abcdefghijklmno".toList ∧
    (lksmith_get_thread_name (lksmith_set_thread_name ⟨[], [], 0, true⟩
        "abcdefghijklmnopqrstuvwxyz".toList).2).length
      = LKSMITH_THREAD_NAME_MAX - 1 := by
  have h := lksmith_set_thread_name_truncates ⟨[], [], 0, true⟩
    "abcdefghijklmnopqrstuvwxyz".toList
  exact ⟨h.1, by rw [h.2.1]; decide, h.2.2 (by decide)⟩

/-! ## C7: the one-shot spin-then-sleep report -/

/-- The C7 property: over any sequence of `lksmith_postlock` calls
against one record, at most one `EWOULDBLOCK` spin-then-sleep report
is emitted; and a single call emits only when the thread's `num_spins`
is positive and the record's one-shot `spin_warn` flag is still clear
(and the record is a sleeper), setting the flag in that same step. -/
def postlockOneShot (props : LockProps) (cs : List PostlockCall) : Prop :=
  (lksmith_postlock_trace props cs).2 ≤ 1 ∧
  ∀ p c, (lksmith_postlock p c).2 = true →
    0 < c.num_spins ∧ p.spin_warn = false ∧ p.sleeper = true ∧
    (lksmith_postlock p c).1.spin_warn = true

theorem nlock_bump_sleeper (p : LockProps) :
    (nlock_bump p).sleeper = p.sleeper := by
  unfold nlock_bump; split <;> rfl

theorem nlock_bump_warn (p : LockProps) :
    (nlock_bump p).spin_warn = p.spin_warn := by
  unfold nlock_bump; split <;> rfl

theorem lksmith_postlock_emit (p : LockProps) (c : PostlockCall)
    (h : (lksmith_postlock p c).2 = true) :
    0 < c.num_spins ∧ p.spin_warn = false ∧ p.sleeper = true ∧
    (lksmith_postlock p c).1.spin_warn = true := by
  unfold lksmith_postlock at h ⊢
  split_ifs at h ⊢ with h1 h2 h3 h4
  simp_all [nlock_bump_warn, nlock_bump_sleeper]

theorem lksmith_postlock_warn_mono (p : LockProps) (c : PostlockCall)
    (h : p.spin_warn = true) :
    (lksmith_postlock p c).1.spin_warn = true := by
  unfold lksmith_postlock
  split_ifs <;> simp [nlock_bump_warn, h]

theorem lksmith_postlock_warn_of_silent (p : LockProps) (c : PostlockCall)
    (h : (lksmith_postlock p c).2 = false) :
    (lksmith_postlock p c).1.spin_warn = p.spin_warn := by
  unfold lksmith_postlock at h ⊢
  split_ifs at h ⊢ <;> simp_all [nlock_bump_warn]

theorem lksmith_postlock_trace_warned (cs : List PostlockCall) :
    ∀ p : LockProps, p.spin_warn = true →
      (lksmith_postlock_trace p cs).2 = 0 := by
  induction cs with
  | nil => intro p _; rfl
  | cons c cs ih =>
    intro p h
    have hnot : (lksmith_postlock p c).2 = false := by
      by_contra hc
      rw [Bool.not_eq_false] at hc
      exact absurd h (by simpa using (lksmith_postlock_emit p c hc).2.1)
    simp [lksmith_postlock_trace, hnot,
      ih (lksmith_postlock p c).1 (lksmith_postlock_warn_mono p c h)]

theorem lksmith_postlock_trace_le_one (cs : List PostlockCall) :
    ∀ p : LockProps, p.spin_warn = false →
      (lksmith_postlock_trace p cs).2 ≤ 1 := by
  induction cs with
  | nil => intro p _; exact Nat.zero_le 1
  | cons c cs ih =>
    intro p h
    rcases hr : (lksmith_postlock p c).2 with _ | _
    · have hle := ih (lksmith_postlock p c).1
        (by rw [lksmith_postlock_warn_of_silent p c hr, h])
      simpa [lksmith_postlock_trace, hr] using hle
    · have h0 := lksmith_postlock_trace_warned cs (lksmith_postlock p c).1
        (lksmith_postlock_emit p c hr).2.2.2
      simp [lksmith_postlock_trace, hr, h0]

/-- C7: a lock record whose `sleeper` property is true and whose
one-shot `spin_warn` flag starts clear (as `calloc` leaves it) emits
the `EWOULDBLOCK` spin-then-sleep report at most once over any
sequence of `lksmith_postlock` calls; each emission requires a
positive `num_spins` and a clear flag and sets the flag in the same
step. -/
theorem lksmith_postlock_one_shot (props : LockProps)
    (cs : List PostlockCall) (_hs : props.sleeper = true)
    (hw : props.spin_warn = false) :
    postlockOneShot props cs :=
  ⟨lksmith_postlock_trace_le_one cs props hw,
   fun p c h => lksmith_postlock_emit p c h⟩

/-- Witness for C7: a sleeper record, flag clear, hit twice by
spin-holding acquisitions: the trace emits exactly one report, which
also shows the bound of `postlockOneShot` is attained. -/
theorem lksmith_postlock_one_shot_witness :
    (lksmith_postlock_trace ⟨0, false, true, false⟩
        [⟨false, true, 1⟩, ⟨false, true, 2⟩]).2 = 1 ∧
    postlockOneShot ⟨0, false, true, false⟩
        [⟨false, true, 1⟩, ⟨false, true, 2⟩] :=
  ⟨by decide,
   lksmith_postlock_one_shot ⟨0, false, true, false⟩
     [⟨false, true, 1⟩, ⟨false, true, 2⟩] rfl rfl⟩

/-! ## C9: `lk_add_sorted` is idempotent and order-preserving -/

/-- The C9 property of `lk_add_sorted` on an array sorted by record
identity: inserting an element already present leaves the array
unchanged (and the C returns 0, success, on that early path);
inserting always yields a sorted array whose members are the old ones
plus the new element — in particular inserting an absent element
yields a permutation of consing it — and inserting twice equals
inserting once. -/
def addBeforeSpec (l : List Nat) (lk : Nat) : Prop :=
  (lk ∈ l → lk_add_sorted l lk = l) ∧
  (List.Sorted (· < ·) (lk_add_sorted l lk) ∧
    ∀ x, x ∈ lk_add_sorted l lk ↔ x ∈ l ∨ x = lk) ∧
  (lk ∉ l → (lk_add_sorted l lk).Perm (lk :: l)) ∧
  lk_add_sorted (lk_add_sorted l lk) lk = lk_add_sorted l lk

theorem lk_add_sorted_mem_iff (l : List Nat) (lk x : Nat) :
    x ∈ lk_add_sorted l lk ↔ x ∈ l ∨ x = lk := by
  induction l with
  | nil => simp [lk_add_sorted]
  | cons a as ih =>
    by_cases h1 : a = lk
    · subst h1
      rw [show lk_add_sorted (a :: as) a = a :: as by simp [lk_add_sorted],
        List.mem_cons]
      tauto
    · by_cases h2 : lk < a
      · simp only [lk_add_sorted, if_neg h1, if_pos h2, List.mem_cons]
        tauto
      · simp only [lk_add_sorted, if_neg h1, if_neg h2, List.mem_cons, ih]
        tauto

theorem lk_add_sorted_of_mem (l : List Nat) (lk : Nat)
    (hs : List.Sorted (· < ·) l) (h : lk ∈ l) :
    lk_add_sorted l lk = l := by
  induction l with
  | nil => cases h
  | cons a as ih =>
    rw [List.sorted_cons] at hs
    rcases List.mem_cons.mp h with rfl | hmem
    · simp [lk_add_sorted]
    · have halt : a < lk := hs.1 lk hmem
      have h1 : ¬ a = lk := by omega
      have h2 : ¬ lk < a := by omega
      simp [lk_add_sorted, h1, h2, ih hs.2 hmem]

theorem lk_add_sorted_sorted (l : List Nat) (lk : Nat)
    (hs : List.Sorted (· < ·) l) :
    List.Sorted (· < ·) (lk_add_sorted l lk) := by
  induction l with
  | nil => simp [lk_add_sorted]
  | cons a as ih =>
    rw [List.sorted_cons] at hs
    by_cases h1 : a = lk
    · subst h1
      simp only [lk_add_sorted, if_pos rfl]
      exact List.sorted_cons.mpr hs
    · by_cases h2 : lk < a
      · simp only [lk_add_sorted, if_neg h1, if_pos h2]
        rw [List.sorted_cons]
        refine ⟨fun b hb => ?_, List.sorted_cons.mpr hs⟩
        rcases List.mem_cons.mp hb with rfl | hbas
        · exact h2
        · exact lt_trans h2 (hs.1 b hbas)
      · have halt : a < lk := by omega
        simp only [lk_add_sorted, if_neg h1, if_neg h2]
        rw [List.sorted_cons]
        refine ⟨fun b hb => ?_, ih hs.2⟩
        rcases (lk_add_sorted_mem_iff as lk b).mp hb with hbas | rfl
        · exact hs.1 b hbas
        · exact halt

theorem lk_add_sorted_perm (l : List Nat) (lk : Nat) (h : lk ∉ l) :
    (lk_add_sorted l lk).Perm (lk :: l) := by
  induction l with
  | nil => exact List.Perm.refl _
  | cons a as ih =>
    have h1 : ¬ a = lk := fun he => h (List.mem_cons.mpr (Or.inl he.symm))
    by_cases h2 : lk < a
    · simp only [lk_add_sorted, if_neg h1, if_pos h2]
      exact List.Perm.refl _
    · have hmem : lk ∉ as := fun hm => h (List.mem_cons_of_mem a hm)
      rw [show lk_add_sorted (a :: as) lk = a :: lk_add_sorted as lk by
        simp [lk_add_sorted, h1, h2]]
      exact List.Perm.trans (List.Perm.cons a (ih hmem))
        (List.Perm.swap lk a as)

/-- C9: on a before-array sorted by record identity, `lk_add_sorted`
is idempotent and order-preserving: inserting a present element leaves
the array unchanged; the result is always sorted and holds exactly the
old elements plus the inserted one; inserting twice equals inserting
once. -/
theorem lk_add_sorted_correct (l : List Nat) (lk : Nat)
    (hs : List.Sorted (· < ·) l) : addBeforeSpec l lk :=
  ⟨fun h => lk_add_sorted_of_mem l lk hs h,
   ⟨lk_add_sorted_sorted l lk hs, fun x => lk_add_sorted_mem_iff l lk x⟩,
   fun h => lk_add_sorted_perm l lk h,
   lk_add_sorted_of_mem _ lk (lk_add_sorted_sorted l lk hs)
     ((lk_add_sorted_mem_iff l lk lk).mpr (Or.inr rfl))⟩

/-- Witness for C9: inserting 2 into the sorted array `[1, 3]`. -/
theorem lk_add_sorted_correct_witness :
    addBeforeSpec [1, 3] 2 ∧ lk_add_sorted [1, 3] 2 = [1, 2, 3] :=
  ⟨lk_add_sorted_correct [1, 3] 2 (by decide), by decide⟩

/-! ## C4: the colored depth-first cycle search

The lemma chain below settles, for `lksmith_search`:

* *monotonicity* — stamps only accumulate;
* *soundness* — a search that returns 1 found a genuinely reachable
  record with the target token, whatever the initial coloring;
* *false-invariant* — a search that returns 0 leaves a coloring in
  which every newly stamped node has a non-target token and only
  stamped successors;
* *termination* — any fuel exceeding the number of unstamped nodes is
  enough, so the C recursion (whose depth is bounded the same way)
  terminates on every finite graph, cyclic or not;
* *completeness over a safe coloring* — over a coloring in which every
  stamped node has a non-target token and stamped successors (the
  fresh coloring after the pass bumps `g_color`, and any coloring left
  by earlier searches of the pass that returned 0), the search returns
  1 iff the target is reachable.

The stale-color counterexample shows the safety hypothesis cannot be
dropped: after an earlier search of the same pass *found* the target,
a later search of the pass can return 0 for a reachable target. -/

theorem stamp_grows {n : Nat} (gc : Nat) (col : Fin n → Nat) (u : Fin n) :
    ColGrows gc col (stamp gc col u) := by
  intro v hv
  unfold stamp
  split
  · rfl
  · exact hv

theorem stamp_self {n : Nat} (gc : Nat) (col : Fin n → Nat) (u : Fin n) :
    stamp gc col u u = gc := by
  unfold stamp
  simp

theorem unstamped_stamp {n : Nat} (gc : Nat) (col : Fin n → Nat)
    (u : Fin n) (h : col u ≠ gc) :
    unstamped gc (stamp gc col u) + 1 = unstamped gc col := by
  have hset : (Finset.univ.filter fun v => stamp gc col u v ≠ gc)
      = (Finset.univ.filter fun v => col v ≠ gc).erase u := by
    ext v
    simp only [Finset.mem_filter, Finset.mem_univ, true_and,
      Finset.mem_erase, stamp]
    by_cases hv : v = u
    · subst hv; simp
    · simp [hv]
  have hmem : u ∈ Finset.univ.filter fun v => col v ≠ gc := by
    simp [h]
  have hpos : 0 < (Finset.univ.filter fun v : Fin n => col v ≠ gc).card :=
    Finset.card_pos.mpr ⟨u, hmem⟩
  unfold unstamped
  rw [hset, Finset.card_erase_of_mem hmem]
  omega

theorem unstamped_le_of_grows {n : Nat} (gc : Nat)
    (col col2 : Fin n → Nat) (h : ColGrows gc col col2) :
    unstamped gc col2 ≤ unstamped gc col := by
  apply Finset.card_le_card
  intro v hv
  simp only [Finset.mem_filter, Finset.mem_univ, true_and] at hv ⊢
  exact fun hc => hv (h v hc)

theorem lksmith_search_loop_grows {n : Nat} (gc : Nat)
    (f : (Fin n → Nat) → Fin n → Option (Bool × (Fin n → Nat)))
    (hf : ∀ col u b col2, f col u = some (b, col2) → ColGrows gc col col2) :
    ∀ vs col b col2, lksmith_search_loop f col vs = some (b, col2) →
      ColGrows gc col col2 := by
  intro vs
  induction vs with
  | nil =>
    intro col b col2 h
    unfold lksmith_search_loop at h
    cases h
    exact fun v hv => hv
  | cons v vs ih =>
    intro col b col2 h
    unfold lksmith_search_loop at h
    split at h
    next hfv => cases h
    next col1 hfv =>
      cases h
      exact hf col v true _ hfv
    next col1 hfv =>
      exact fun w hw => ih col1 b col2 h w (hf col v false col1 hfv w hw)

theorem lksmith_search_grows {n : Nat} (g : SGraph n) (gc start : Nat) :
    ∀ fuel col u b col2,
      lksmith_search g gc start fuel col u = some (b, col2) →
      ColGrows gc col col2 := by
  intro fuel
  induction fuel with
  | zero => intro col u b col2 h; cases h
  | succ fuel ih =>
    intro col u b col2 h
    rw [lksmith_search] at h
    split_ifs at h with h1 h2
    · cases h; exact fun v hv => hv
    · cases h; exact fun v hv => hv
    · exact fun v hv =>
        lksmith_search_loop_grows gc _ ih _ _ _ _ h v
          (stamp_grows gc col u v hv)

theorem lksmith_search_loop_true {n : Nat} (g : SGraph n) (start : Nat)
    (f : (Fin n → Nat) → Fin n → Option (Bool × (Fin n → Nat)))
    (hf : ∀ col u col2, f col u = some (true, col2) → Reaches g start u) :
    ∀ vs col col2, lksmith_search_loop f col vs = some (true, col2) →
      ∃ v ∈ vs, Reaches g start v := by
  intro vs
  induction vs with
  | nil =>
    intro col col2 h
    unfold lksmith_search_loop at h
    simp at h
  | cons v vs ih =>
    intro col col2 h
    unfold lksmith_search_loop at h
    split at h
    · cases h
    · next col1 hfv =>
        exact ⟨v, List.mem_cons_self v vs, hf col v col1 hfv⟩
    · next col1 hfv =>
        obtain ⟨w, hw, hr⟩ := ih col1 col2 h
        exact ⟨w, List.mem_cons_of_mem v hw, hr⟩

theorem lksmith_search_finds_reachable {n : Nat} (g : SGraph n)
    (gc start : Nat) :
    ∀ fuel col u col2,
      lksmith_search g gc start fuel col u = some (true, col2) →
      Reaches g start u := by
  intro fuel
  induction fuel with
  | zero => intro col u col2 h; cases h
  | succ fuel ih =>
    intro col u col2 h
    rw [lksmith_search] at h
    split_ifs at h with h1 h2
    · exact Reaches.here h1
    · simp at h
    · obtain ⟨v, hv, hr⟩ := lksmith_search_loop_true g start _
        (fun c w c2 hh => ih c w c2 hh) _ _ _ h
      exact Reaches.step hv hr

theorem newStamps_trans {n : Nat} (g : SGraph n) (gc start : Nat)
    (col col1 col2 : Fin n → Nat) (h01 : NewStamps g gc start col col1)
    (h12 : NewStamps g gc start col1 col2)
    (g12 : ColGrows gc col1 col2) :
    NewStamps g gc start col col2 := by
  intro v hv
  rcases h12 v hv with hc1 | hright
  · rcases h01 v hc1 with hc0 | ⟨hp, hk⟩
    · exact Or.inl hc0
    · exact Or.inr ⟨hp, fun w hw => g12 w (hk w hw)⟩
  · exact Or.inr hright

theorem lksmith_search_loop_false {n : Nat} (g : SGraph n)
    (gc start : Nat)
    (f : (Fin n → Nat) → Fin n → Option (Bool × (Fin n → Nat)))
    (hf_grows : ∀ col u b col2, f col u = some (b, col2) →
      ColGrows gc col col2)
    (hf_false : ∀ col u col2, f col u = some (false, col2) →
      col2 u = gc ∧ NewStamps g gc start col col2) :
    ∀ vs col col2, lksmith_search_loop f col vs = some (false, col2) →
      ColGrows gc col col2 ∧ (∀ v ∈ vs, col2 v = gc) ∧
        NewStamps g gc start col col2 := by
  intro vs
  induction vs with
  | nil =>
    intro col col2 h
    unfold lksmith_search_loop at h
    cases h
    exact ⟨fun v hv => hv, fun v hv => absurd hv (List.not_mem_nil v),
      fun v hv => Or.inl hv⟩
  | cons v vs ih =>
    intro col col2 h
    unfold lksmith_search_loop at h
    split at h
    · cases h
    · simp at h
    · next col1 hfv =>
        obtain ⟨hg12, hvs, hns12⟩ := ih col1 col2 h
        obtain ⟨hu1, hns01⟩ := hf_false col v col1 hfv
        have hg01 := hf_grows col v false col1 hfv
        refine ⟨fun w hw => hg12 w (hg01 w hw), ?_,
          newStamps_trans g gc start col col1 col2 hns01 hns12 hg12⟩
        intro w hw
        rcases List.mem_cons.mp hw with rfl | hwvs
        · exact hg12 w hu1
        · exact hvs w hwvs

theorem lksmith_search_false {n : Nat} (g : SGraph n) (gc start : Nat) :
    ∀ fuel col u col2,
      lksmith_search g gc start fuel col u = some (false, col2) →
      col2 u = gc ∧ ColGrows gc col col2 ∧
        NewStamps g gc start col col2 := by
  intro fuel
  induction fuel with
  | zero => intro col u col2 h; cases h
  | succ fuel ih =>
    intro col u col2 h
    rw [lksmith_search] at h
    split_ifs at h with h1 h2
    · simp at h
    · cases h
      exact ⟨h2, fun v hv => hv, fun v hv => Or.inl hv⟩
    · obtain ⟨hg, hkids, hns⟩ := lksmith_search_loop_false g gc start _
        (lksmith_search_grows g gc start fuel)
        (fun c w c2 hh => ⟨(ih c w c2 hh).1, (ih c w c2 hh).2.2⟩)
        _ _ _ h
      have hu : col2 u = gc := hg u (stamp_self gc col u)
      refine ⟨hu, fun v hv => hg v (stamp_grows gc col u v hv), ?_⟩
      intro v hv
      rcases hns v hv with hst | hright
      · by_cases hvu : v = u
        · subst hvu
          exact Or.inr ⟨h1, fun w hw => hkids w hw⟩
        · left
          unfold stamp at hst
          simpa [hvu] using hst
      · exact Or.inr hright

theorem safeCol_of_false {n : Nat} (g : SGraph n) (gc start : Nat)
    (fuel : Nat) (col : Fin n → Nat) (u : Fin n) (col2 : Fin n → Nat)
    (hsafe : SafeCol g gc start col)
    (h : lksmith_search g gc start fuel col u = some (false, col2)) :
    SafeCol g gc start col2 ∧ col2 u = gc := by
  obtain ⟨hu, hg, hns⟩ := lksmith_search_false g gc start fuel col u col2 h
  refine ⟨?_, hu⟩
  intro v hv
  rcases hns v hv with hc | hright
  · obtain ⟨hp, hk⟩ := hsafe v hc
    exact ⟨hp, fun w hw => hg w (hk w hw)⟩
  · exact hright

theorem safeCol_not_reaches {n : Nat} (g : SGraph n) (gc start : Nat)
    (col : Fin n → Nat) (hsafe : SafeCol g gc start col) :
    ∀ u, Reaches g start u → col u ≠ gc := by
  intro u hr
  induction hr with
  | @here w hp => exact fun hw => (hsafe w hw).1 hp
  | @step w v hv _ ih => exact fun hw => ih ((hsafe w hw).2 v hv)

theorem lksmith_search_loop_isSome {n : Nat} (gc : Nat)
    (f : (Fin n → Nat) → Fin n → Option (Bool × (Fin n → Nat)))
    (F : Nat)
    (hf_some : ∀ col u, unstamped gc col < F → (f col u).isSome = true)
    (hf_grows : ∀ col u b col2, f col u = some (b, col2) →
      ColGrows gc col col2) :
    ∀ vs col, unstamped gc col < F →
      (lksmith_search_loop f col vs).isSome = true := by
  intro vs
  induction vs with
  | nil => intro col _; rfl
  | cons v vs ih =>
    intro col hcol
    unfold lksmith_search_loop
    have h1 := hf_some col v hcol
    rcases hfv : f col v with _ | ⟨b, col1⟩
    · simp [hfv] at h1
    · rcases b with _ | _
      · have hle := unstamped_le_of_grows gc col col1
          (hf_grows col v false col1 hfv)
        exact ih col1 (lt_of_le_of_lt hle hcol)
      · rfl

theorem lksmith_search_isSome {n : Nat} (g : SGraph n) (gc start : Nat) :
    ∀ fuel col u, unstamped gc col < fuel →
      (lksmith_search g gc start fuel col u).isSome = true := by
  intro fuel
  induction fuel with
  | zero => intro col u h; exact absurd h (Nat.not_lt_zero _)
  | succ fuel ih =>
    intro col u hcol
    rw [lksmith_search]
    split_ifs with h1 h2
    · rfl
    · rfl
    · have hs := unstamped_stamp gc col u h2
      exact lksmith_search_loop_isSome gc _ fuel ih
        (lksmith_search_grows g gc start fuel) _ _ (by omega)

/-- C4 as amended: over any coloring that is *safe* for the current
generation and target — no stamped node carries the target token and
stamped nodes have only stamped successors, which covers the fresh
coloring right after the pass bumps `g_color` as well as any coloring
left behind by earlier searches of the pass that returned 0 — and any
fuel exceeding the number of unstamped nodes (so: the search always
terminates on a finite graph), `lksmith_search` returns 1 if and only
if a record with the target token is reachable along `before` edges. -/
theorem lksmith_search_safe_iff {n : Nat} (g : SGraph n)
    (gc start : Nat) (col : Fin n → Nat) (u : Fin n) (fuel : Nat)
    (hsafe : SafeCol g gc start col) (hfuel : unstamped gc col < fuel) :
    ∃ b col2, lksmith_search g gc start fuel col u = some (b, col2) ∧
      (b = true ↔ Reaches g start u) := by
  have hsome := lksmith_search_isSome g gc start fuel col u hfuel
  rcases hres : lksmith_search g gc start fuel col u with _ | ⟨b, col2⟩
  · rw [hres] at hsome; cases hsome
  · refine ⟨b, col2, rfl, ?_⟩
    rcases b with _ | _
    · constructor
      · intro hb; cases hb
      · intro hr
        obtain ⟨hsafe2, hu⟩ :=
          safeCol_of_false g gc start fuel col u col2 hsafe hres
        exact absurd hu (safeCol_not_reaches g gc start col2 hsafe2 u hr)
    · exact ⟨fun _ =>
        lksmith_search_finds_reachable g gc start fuel col u col2 hres,
        fun _ => rfl⟩

/-- Witness for C4's amended theorem: on `safeDemo` with the all-fresh
coloring, the search from node 0 for token 11 (reachable via the edge
`0 → 1`) is settled by the theorem. -/
theorem lksmith_search_safe_iff_witness :
    ∃ b col2,
      lksmith_search safeDemo 1 11 3 (fun _ => 0) 0 = some (b, col2) ∧
      (b = true ↔ Reaches safeDemo 11 0) :=
  lksmith_search_safe_iff safeDemo 1 11 (fun _ => 0) 0 3
    (fun v hv => absurd hv (by simp)) (by decide)

/-- C4 counterexample: the claim — "*every* invocation of the cycle
search within one pass returns nonzero iff the target is reachable,
nodes colored in earlier invocations of the same pass being soundly
skipped" — fails on the code.  In `searchDemo` (edges `0 → 1`,
`1 → 2`, `3 → 1`; target token 2) the pass's first search, from node
0, returns 1 after stamping nodes 0 and 1; the second search of the
same pass, from node 3, meets the stamped node 1, skips it, and
returns 0 — although the target is reachable from node 3 via
`3 → 1 → 2`.  The skip is unsound precisely because the earlier
invocation stopped at the target, leaving node 1 stamped but not
exhausted. -/
theorem lksmith_search_stale_color_misses :
    searchDemoRuns = some (true, false) ∧ Reaches searchDemo 2 3 := by
  refine ⟨rfl, ?_⟩
  exact Reaches.step (show (1 : Fin 4) ∈ searchDemo.beforeOf 3 by decide)
    (Reaches.step (show (2 : Fin 4) ∈ searchDemo.beforeOf 1 by decide)
      (Reaches.here (by decide)))

end Lksmith
